import Mathlib

/-
Verification development for the consensus_protocol repository (a simulated
Streamlet-style BFT blockchain).  The Rust sources under src/consensus are
shallowly embedded below.

Modelling conventions:
  * Byte strings (Rust `Vec<u8>`, `[u8; 32]`, `String` payloads measured by
    `len()` in bytes) are `List Nat` with entries below 256.
  * `HashSet` becomes a duplicate-free `List` with insert-if-absent, and
    `HashMap` an association `List` whose `insert` replaces the bound value,
    exactly like `std::collections::HashMap::insert`.  Iteration order of a
    Rust `HashSet` is unspecified; the list order stands in for one concrete
    iteration order, which is the only point of nondeterminism.
  * A Rust panic (a failing `unwrap`, an out-of-bounds index) is `Option.none`;
    every operation that can hit such a site returns `Option`.
  * The two unbounded loops (`finalize`'s ancestor walk, 64-byte chunking)
    take explicit fuel; exhausting fuel is also `none`.  Callers pass fuel
    large enough that exhaustion coincides with walking outside the finite
    block map.
  * Debug printing (`Debug::dbg`, `print_blockchain`) is elided, except that
    the `unwrap` calls embedded inside the debug line of `Node::notarize` are
    kept, because they change the function's domain.
  * The `name` field of blocks and messages is a debug-only tag that is never
    read by the protocol logic (it is not part of the hash preimage); it is
    elided.
  * The two quorum thresholds written in f64 in the source,
    `(self.n as f64 * 2.0 / 3.0) as usize` and `(2.0 / 3.0 * n as f64) as usize`,
    are modelled as `2 * n / 3` (natural floor division).  Round-to-nearest-even
    analysis of the single rounding in each expression shows both casts equal
    the exact floor of 2n/3 for every n below 2^49, which covers every
    population size the simulator can instantiate.
-/

set_option maxRecDepth 100000

set_option maxHeartbeats 1000000

namespace Consensus

/-! ## SHA-256 (utils.rs: Crypto::hash), computed on byte lists -/

def w32 (x : Nat) : Nat := x % 4294967296

def rotr (n x : Nat) : Nat := w32 ((x >>> n) ||| (x <<< (32 - n)))

def shaCh (x y z : Nat) : Nat := (x &&& y) ^^^ ((x ^^^ 4294967295) &&& z)

def shaMaj (x y z : Nat) : Nat := (x &&& y) ^^^ (x &&& z) ^^^ (y &&& z)

def bigSigma0 (x : Nat) : Nat := rotr 2 x ^^^ rotr 13 x ^^^ rotr 22 x

def bigSigma1 (x : Nat) : Nat := rotr 6 x ^^^ rotr 11 x ^^^ rotr 25 x

def smallSigma0 (x : Nat) : Nat := rotr 7 x ^^^ rotr 18 x ^^^ (x >>> 3)

def smallSigma1 (x : Nat) : Nat := rotr 17 x ^^^ rotr 19 x ^^^ (x >>> 10)

def shaK : List Nat :=
  [1116352408, 1899447441, 3049323471, 3921009573, 961987163,
   1508970993, 2453635748, 2870763221, 3624381080, 310598401,
   607225278, 1426881987, 1925078388, 2162078206, 2614888103,
   3248222580, 3835390401, 4022224774, 264347078, 604807628,
   770255983, 1249150122, 1555081692, 1996064986, 2554220882,
   2821834349, 2952996808, 3210313671, 3336571891, 3584528711,
   113926993, 338241895, 666307205, 773529912, 1294757372,
   1396182291, 1695183700, 1986661051, 2177026350, 2456956037,
   2730485921, 2820302411, 3259730800, 3345764771, 3516065817,
   3600352804, 4094571909, 275423344, 430227734, 506948616,
   659060556, 883997877, 958139571, 1322822218, 1537002063,
   1747873779, 1955562222, 2024104815, 2227730452, 2361852424,
   2428436474, 2756734187, 3204031479, 3329325298]

def shaH0 : List Nat :=
  [1779033703, 3144134277, 1013904242, 2773480762, 1359893119,
   2600822924, 528734635, 1541459225]

/-- Big-endian 8-byte encoding of a length-in-bits value (mod 2^64). -/
def be8 (x : Nat) : List Nat :=
  [x >>> 56 % 256, x >>> 48 % 256, x >>> 40 % 256, x >>> 32 % 256,
   x >>> 24 % 256, x >>> 16 % 256, x >>> 8 % 256, x % 256]

/-- Little-endian 8-byte encoding, `usize::to_le_bytes` on a 64-bit target. -/
def le8 (x : Nat) : List Nat :=
  [x % 256, x >>> 8 % 256, x >>> 16 % 256, x >>> 24 % 256,
   x >>> 32 % 256, x >>> 40 % 256, x >>> 48 % 256, x >>> 56 % 256]

def padMsg (m : List Nat) : List Nat :=
  m ++ 128 :: List.replicate ((55 + 64 - m.length % 64) % 64) 0 ++ be8 (8 * m.length)

def bytesToWords : List Nat → List Nat
  | a :: b :: c :: d :: rest => (((a * 256 + b) * 256 + c) * 256 + d) :: bytesToWords rest
  | _ => []

def extendSched (ws : List Nat) : Nat → List Nat
  | 0 => ws
  | fuel + 1 =>
      let t := ws.length
      extendSched
        (ws ++ [w32 (ws.getD (t - 16) 0 + smallSigma0 (ws.getD (t - 15) 0)
                  + ws.getD (t - 7) 0 + smallSigma1 (ws.getD (t - 2) 0))]) fuel

def shaRound (st : List Nat) (wk : Nat × Nat) : List Nat :=
  match st with
  | [a, b, c, d, e, f, g, h] =>
      let t1 := w32 (h + bigSigma1 e + shaCh e f g + wk.2 + wk.1)
      let t2 := w32 (bigSigma0 a + shaMaj a b c)
      [w32 (t1 + t2), a, b, c, w32 (d + t1), e, f, g]
  | st => st

def compressBlock (h : List Nat) (block : List Nat) : List Nat :=
  let ws := extendSched (bytesToWords block) 48
  let fin := (ws.zip shaK).foldl shaRound h
  (h.zip fin).map (fun p => w32 (p.1 + p.2))

def chunks64 : Nat → List Nat → List (List Nat)
  | 0, _ => []
  | _, [] => []
  | fuel + 1, l => l.take 64 :: chunks64 fuel (l.drop 64)

def wordsToBytes (ws : List Nat) : List Nat :=
  ws.flatMap (fun w => [w >>> 24 % 256, w >>> 16 % 256, w >>> 8 % 256, w % 256])

/-- `Crypto::hash`: SHA-256 of a byte list, as 32 bytes. -/
def sha256 (m : List Nat) : List Nat :=
  let p := padMsg m
  wordsToBytes ((chunks64 p.length p).foldl compressBlock shaH0)

/-! ## Crypto oracle (utils.rs) -/

/-- `Hash = [u8; 32]`, as a list of 32 bytes. -/
abbrev Hash := List Nat

/-- `Signature = (u64, Vec<u8>)`. -/
abbrev Signature := Nat × List Nat

/-- `Crypto::var_to_bytes`: `usize::to_le_bytes`. -/
def var_to_bytes (x : Nat) : List Nat := le8 x

/-- `Crypto::sha256_var`. -/
def sha256_var (x : Nat) : Hash := sha256 (var_to_bytes x)

/-- `Crypto::short_hash`: first 8 bytes read little-endian. -/
def short_hash (x : List Nat) : Nat := (x.take 8).foldr (fun b acc => b + 256 * acc) 0

/-- `Crypto::sign` (the dummy signing oracle of the simulator). -/
def sign (signer : Nat) (x : List Nat) : Signature := (signer, x)

/-- `Crypto::check_signature`: `sig == sign(id, plaintext)`. -/
def check_signature (signer : Nat) (plaintext : List Nat) (s : Signature) : Bool :=
  s = sign signer plaintext

/-- `Node::leader`: `short_hash(sha256_var(e)) % n`. -/
def leader (e n : Nat) : Nat := short_hash (sha256_var e) % n

/-! ## Message serialization

`bincode::serialize` with its legacy default options writes an enum variant
as a 4-byte little-endian u32 index and a `[u8; 32]` as 32 raw bytes, so the
signed payload `(MessageType, Hash)` is the variant tag followed by the hash. -/

/-- `MessageType` (blockchain.rs). -/
inductive MessageType where
  | blockProposal
  | vote
  | empty
deriving DecidableEq, Repr

def messageTypeBytes : MessageType → List Nat
  | .blockProposal => [0, 0, 0, 0]
  | .vote => [1, 0, 0, 0]
  | .empty => [2, 0, 0, 0]

/-- `bincode::serialize(&(message_type, hash))`. -/
def serSig (t : MessageType) (h : Hash) : List Nat := messageTypeBytes t ++ h

/-! ## Blocks and messages (blockchain.rs) -/

def MAXLENGTH_TXS : Nat := 10000

def MAXLENGTH_SINGLE_TX : Nat := 2000

/-- `Block` (the debug-only `name` tag is elided). -/
structure Block where
  parent_hash : Option Hash
  e : Nat
  txs : List Nat
  children : List Hash
  height : Nat
  hash : Hash
deriving DecidableEq, Repr

/-- The hash preimage built by `Block::new`:
32 parent bytes (zero sentinel when absent) ++ le8 e ++ txs. -/
def blockPreimage (parent_hash : Option Hash) (e : Nat) (txs : List Nat) : List Nat :=
  parent_hash.getD (List.replicate 32 0) ++ var_to_bytes e ++ txs

/-- `Block::new`. -/
def Block.new (parent_hash : Option Hash) (e : Nat) (txs : List Nat) (height : Nat) : Block :=
  { parent_hash := parent_hash, e := e, txs := txs, children := [],
    height := height, hash := sha256 (blockPreimage parent_hash e txs) }

/-- `Block::validate_block`: `txs.len() < MAXLENGTH_TXS && e > 0`. -/
def Block.validate_block (b : Block) : Bool :=
  b.txs.length < MAXLENGTH_TXS && b.e > 0

/-- `BlockMessage` (debug-only `name` elided). -/
structure BlockMessage where
  creator : Nat
  parent_hash : Option Hash
  e : Nat
  txs : List Nat
  signer : Nat
  signature : Signature
deriving DecidableEq, Repr

/-- `VoteMessage` (debug-only `name` elided). -/
structure VoteMessage where
  creator : Nat
  parent_hash : Option Hash
  e : Nat
  txs : List Nat
  signer : Nat
  signature : Signature
deriving DecidableEq, Repr

/-- `Block::to_block_message` (sender and signer set to the same value). -/
def Block.to_block_message (b : Block) (sender : Nat) (signature : Signature) : BlockMessage :=
  { creator := sender, parent_hash := b.parent_hash, e := b.e, txs := b.txs,
    signer := sender, signature := signature }

/-- `Block::to_vote_message`. -/
def Block.to_vote_message (b : Block) (sender : Nat) (signature : Signature) : VoteMessage :=
  { creator := sender, parent_hash := b.parent_hash, e := b.e, txs := b.txs,
    signer := sender, signature := signature }

/-- The `dyn Message` trait object: a tagged sum of the two concrete messages. -/
inductive Msg where
  | block (bm : BlockMessage)
  | vote (vm : VoteMessage)
deriving DecidableEq, Repr

def Msg.creator : Msg → Nat
  | .block bm => bm.creator
  | .vote vm => vm.creator

/-! ## Finite-map helpers standing in for HashMap / HashSet -/

/-- `HashSet::insert` on a duplicate-free list. -/
def insertHash (l : List Hash) (h : Hash) : List Hash :=
  if h ∈ l then l else l ++ [h]

/-- `HashSet<usize>::insert`. -/
def insertNat (l : List Nat) (v : Nat) : List Nat :=
  if v ∈ l then l else l ++ [v]

/-- `HashMap::get` on an association list. -/
def lookupAssoc {α : Type} : List (Hash × α) → Hash → Option α
  | [], _ => none
  | (k, v) :: rest, h => if k = h then some v else lookupAssoc rest h

/-- `HashMap::insert`: replace the bound value or append a new binding. -/
def insertAssoc {α : Type} : List (Hash × α) → Hash → α → List (Hash × α)
  | [], h, v => [(h, v)]
  | (k, w) :: rest, h, v =>
      if k = h then (k, v) :: rest else (k, w) :: insertAssoc rest h v

/-- Update the value bound to a key in place (used where the source first
guarantees the entry exists and then calls `get_mut(..).unwrap()`). -/
def updateAssoc {α : Type} (m : List (Hash × α)) (h : Hash) (f : α → α) : List (Hash × α) :=
  m.map (fun p => if p.1 = h then (p.1, f p.2) else p)

/-- `Vec::resize(new_len, fill)`: truncates when the vector is longer. -/
def resizeList {α : Type} (l : List α) (newLen : Nat) (fill : α) : List α :=
  if l.length ≥ newLen then l.take newLen
  else l ++ List.replicate (newLen - l.length) fill

/-- Replace the element at an index (the index is always in bounds at the one
call site, which has just resized the vector past it). -/
def setAt {α : Type} (l : List α) (i : Nat) (f : α → α) : List α :=
  l.enum.map (fun p => if p.1 = i then f p.2 else p.2)

/-! ## The block tree (blockchain.rs: Blockchain) -/

/-- `Blockchain`. -/
structure Blockchain where
  genesis : Hash
  blocks : List (Hash × Block)
  votes : List (Hash × List Nat)
  notarized : List Hash
  finalized : List Hash
  block_by_epoch : List (List Hash)
  id : Nat
deriving DecidableEq, Repr

/-- `Blockchain::new`: genesis pre-inserted, pre-notarized, pre-finalized. -/
def Blockchain.new (id : Nat) : Blockchain :=
  let genesis := Block.new none 0 [] 0
  { genesis := genesis.hash
    blocks := [(genesis.hash, genesis)]
    votes := []
    notarized := [genesis.hash]
    finalized := [genesis.hash]
    block_by_epoch := [[genesis.hash]]
    id := id }

/-- `Blockchain::contains_block`. -/
def Blockchain.contains_block (c : Blockchain) (b : Hash) : Bool :=
  (lookupAssoc c.blocks b).isSome

/-- `Blockchain::parent_of`: `blocks.get(&b).unwrap().parent_hash`.
The outer `none` is the `unwrap` firing on an unknown hash. -/
def Blockchain.parent_of (c : Blockchain) (b : Hash) : Option (Option Hash) :=
  (lookupAssoc c.blocks b).map Block.parent_hash

/-- Helper for `get_highest_notarized_block`: scan one epoch level for the
first hash the given set contains. -/
def findInLevel (level : List Hash) (s : List Hash) : Option Hash :=
  level.find? (fun h => h ∈ s)

/-- Scan epoch levels (already reversed to highest-first) for the first hash
belonging to the given set. -/
def scanLevels (s : List Hash) : List (List Hash) → Option Hash
  | [] => none
  | level :: rest =>
      match findInLevel level s with
      | some h => h
      | none => scanLevels s rest

/-- `Blockchain::get_highest_notarized_block`: walk `block_by_epoch` from the
highest epoch down, return the first notarized hash, else genesis.  (The
debug print inside the loop dereferences the found hash; its possible
failure is surfaced at the caller, which immediately dereferences the
returned hash as well.) -/
def Blockchain.get_highest_notarized_block (c : Blockchain) : Hash :=
  (scanLevels c.notarized c.block_by_epoch.reverse).getD c.genesis

/-- `Blockchain::highest_finalized_block` (same scan over `finalized`; the
final `panic` when nothing is finalized is `none`). -/
def Blockchain.highest_finalized_block (c : Blockchain) : Option Hash :=
  scanLevels c.finalized c.block_by_epoch.reverse

/-- `Blockchain::validate_and_extend`.  Returns `none` when the `unwrap` of
the parent lookup fires (the documented precondition is that the parent is
already present).  Note `self.block_by_epoch.resize(b.e + 1, ..)` follows
`Vec::resize` semantics and so truncates the vector when it is already
longer than `b.e + 1`. -/
def Blockchain.validate_and_extend (c : Blockchain) (b : Block) (parent_hash : Hash) :
    Option (Bool × Blockchain) :=
  if ¬ b.validate_block ∧ ¬ c.contains_block b.hash then some (false, c)
  else
    match lookupAssoc c.blocks parent_hash with
    | none => none
    | some parent =>
        let parent' := { parent with children := insertHash parent.children b.hash }
        let blocks₁ := insertAssoc c.blocks parent_hash parent'
        let bbe₁ := resizeList c.block_by_epoch (b.e + 1) []
        let bbe₂ := setAt bbe₁ b.e (fun level => insertHash level b.hash)
        some (true, { c with blocks := insertAssoc blocks₁ b.hash b, block_by_epoch := bbe₂ })

/-! ## The honest validator (node.rs: Node) -/

/-- `Node`. -/
structure Node where
  id : Nat
  n : Nat
  chain : Blockchain
  outgoing_messages : List (Nat × Msg)
  unprocessed_pool : List Msg
  tx_pool : List (List Nat)
deriving DecidableEq, Repr

/-- `Node::new`. -/
def Node.new (id n : Nat) : Node :=
  { id := id, n := n, chain := Blockchain.new id,
    outgoing_messages := [], unprocessed_pool := [], tx_pool := [] }

/-- `Node::broadcast_message`: queue a copy for every peer in index order. -/
def Node.broadcast_message (nd : Node) (m : Msg) : Node :=
  { nd with outgoing_messages :=
      nd.outgoing_messages ++ ((List.range nd.n).filter (fun i => i ≠ nd.id)).map (fun i => (i, m)) }

/-- The voters recorded for a hash (empty when the map has no entry). -/
def votersOf (c : Blockchain) (h : Hash) : List Nat :=
  (lookupAssoc c.votes h).getD []

/-- The `if !votes.contains_key(..) { votes.insert(.., HashSet::new()) }` setup
used by receive_block, vote and receive_vote. -/
def ensureVotes (c : Blockchain) (h : Hash) : Blockchain :=
  if (lookupAssoc c.votes h).isSome then c
  else { c with votes := insertAssoc c.votes h [] }

/-- `votes.get_mut(&h).unwrap().insert(v)` (every call site runs `ensureVotes`
first, so the entry exists and the `unwrap` cannot fire). -/
def addVoter (c : Blockchain) (h : Hash) (v : Nat) : Blockchain :=
  { c with votes := updateAssoc c.votes h (fun l => insertNat l v) }

/-- Quorum threshold `(self.n as f64 * 2.0 / 3.0) as usize`; see the header
note on the f64-to-floor coincidence. -/
def notarizeThreshold (n : Nat) : Nat := 2 * n / 3

/-- The `while !finalized.contains(&h) { finalized.insert(h); h = parent_of(h).unwrap() }`
loop at the end of `Node::finalize`.  `none` is a failing `unwrap` (a walked
hash outside `blocks`, or a parentless block reached before anything
finalized); the fuel passed by `finalize` exceeds the number of blocks, so
exhaustion implies such a failure. -/
def finalizeLoop (c : Blockchain) (h : Hash) : Nat → Option Blockchain
  | 0 => none
  | fuel + 1 =>
      if h ∈ c.finalized then some c
      else
        let c' := { c with finalized := insertHash c.finalized h }
        match lookupAssoc c'.blocks h with
        | none => none
        | some b =>
            match b.parent_hash with
            | none => none
            | some ph => finalizeLoop c' ph fuel

/-- `Node::finalize` (it only touches the chain, so it is modelled on
`Blockchain`). -/
def finalize (c : Blockchain) (block_hash : Hash) (e : Nat) : Option Blockchain :=
  if block_hash ∈ c.finalized then some c
  else
    match lookupAssoc c.blocks block_hash with
    | none => none
    | some block =>
        match block.parent_hash with
        | none => none
        | some parent_hash =>
            match lookupAssoc c.blocks parent_hash with
            | none => none
            | some parent =>
                if parent_hash ∉ c.notarized then some c
                else if block_hash ∉ c.notarized then some c
                else if block.e = e ∧ parent.e = e - 1 then
                  finalizeLoop c block_hash (c.blocks.length + 1)
                else some c

/-- `Node::notarize` (needs only `n` and the chain).  The first lookup is the
unconditional `blocks.get(&block_hash).unwrap()`, which precedes the
`contains_block` guard; with the block present that guard is true, so the
vote-set `unwrap` runs next.  When the threshold passes, the debug line
dereferences `parent_of(block_hash).unwrap()` and looks the parent up, so a
parentless or parent-missing block ends in a panic before the
`SOUDNESS_ERROR` branch below it can ever run. -/
def notarize (n : Nat) (c : Blockchain) (block_hash : Hash) : Option Blockchain :=
  match lookupAssoc c.blocks block_hash with
  | none => none
  | some block =>
      match lookupAssoc c.votes block_hash with
      | none => none
      | some vs =>
          if vs.length < notarizeThreshold n then some c
          else
            match block.parent_hash with
            | none => none
            | some parent_hash =>
                match lookupAssoc c.blocks parent_hash with
                | none => none
                | some _ =>
                    let c' := { c with notarized := insertHash c.notarized block_hash }
                    finalize c' parent_hash (block.e - 1)

/-- `Node::vote`.  The epoch index `block_by_epoch[b.e]` is a panicking index
(`none` when out of bounds). -/
def Node.vote (nd : Node) (b : Block) : Option Node :=
  match nd.chain.block_by_epoch[b.e]? with
  | none => none
  | some level =>
      if level.length > 1 then some nd
      else
        let c := addVoter (ensureVotes nd.chain b.hash) b.hash nd.id
        match notarize nd.n c b.hash with
        | none => none
        | some c' =>
            let signature := sign nd.id (serSig .vote b.hash)
            some (Node.broadcast_message { nd with chain := c' }
              (.vote (b.to_vote_message nd.id signature)))

/-- `Node::receive_block`. -/
def Node.receive_block (nd : Node) (b : BlockMessage) : Option Node :=
  match b.parent_hash with
  | none => some nd
  | some ph =>
      match lookupAssoc nd.chain.blocks ph with
      | none => some { nd with unprocessed_pool := nd.unprocessed_pool ++ [.block b] }
      | some parent =>
          if b.signer ≠ leader b.e nd.n then some nd
          else
            let new_block := Block.new (some ph) b.e b.txs (parent.height + 1)
            if nd.chain.contains_block new_block.hash then some nd
            else if ¬ check_signature b.signer (serSig .blockProposal new_block.hash) b.signature
            then some nd
            else
              match nd.chain.validate_and_extend new_block parent.hash with
              | none => none
              | some (false, c) => some { nd with chain := c }
              | some (true, c) =>
                  let c := addVoter (ensureVotes c new_block.hash) new_block.hash b.signer
                  match lookupAssoc c.blocks c.get_highest_notarized_block with
                  | none => none
                  | some hb =>
                      let nd₁ := { nd with chain := c }
                      let voted :=
                        if new_block.height = hb.height + 1 then nd₁.vote new_block
                        else some nd₁
                      voted.map (fun nd₂ => nd₂.broadcast_message (.block b))

/-- `Node::receive_vote`. -/
def Node.receive_vote (nd : Node) (b : VoteMessage) : Option Node :=
  match b.parent_hash with
  | none => some nd
  | some ph =>
      let new_block := Block.new (some ph) b.e b.txs 0
      let c := ensureVotes nd.chain new_block.hash
      if b.signer ∈ votersOf c new_block.hash then some { nd with chain := c }
      else if ¬ check_signature b.signer (serSig .vote new_block.hash) b.signature then
        some { nd with chain := c }
      else
        let c := addVoter c new_block.hash b.signer
        let nd₁ := Node.broadcast_message { nd with chain := c } (.vote b)
        match lookupAssoc nd₁.chain.blocks new_block.hash with
        | none => some nd₁
        | some block =>
            (notarize nd₁.n nd₁.chain block.hash).map (fun c' => { nd₁ with chain := c' })

/-- `Node::incoming_message` (the trait-object downcast becomes a case split;
the sender argument is unused in the source). -/
def Node.incoming_message (nd : Node) (m : Msg) : Option Node :=
  match m with
  | .block bm => nd.receive_block bm
  | .vote vm => nd.receive_vote vm

/-- `Node::process_unprocessed_pool`: drain the pool, then feed the drained
snapshot back through `incoming_message`. -/
def Node.process_unprocessed_pool (nd : Node) : Option Node :=
  nd.unprocessed_pool.foldl (fun acc m => acc.bind (fun nd' => nd'.incoming_message m))
    (some { nd with unprocessed_pool := [] })

/-- Decimal digits of a node id, `id.to_string()` as bytes. -/
def decimalBytesGo : Nat → Nat → List Nat
  | _, 0 => []
  | v, fuel + 1 => if v < 10 then [v + 48] else decimalBytesGo (v / 10) fuel ++ [v % 10 + 48]

def decimalBytes (x : Nat) : List Nat := decimalBytesGo x (x + 1)

/-- `Node::build_block_txs`: start with the id, then drain transactions while
the running length stays below MAXLENGTH_TXS.  Returns the payload and the
remaining pool. -/
def build_block_txs_loop : List Nat → List (List Nat) → List Nat × List (List Nat)
  | txs, [] => (txs, [])
  | txs, tx :: rest =>
      if tx.length + txs.length < MAXLENGTH_TXS then build_block_txs_loop (txs ++ tx) rest
      else (txs, tx :: rest)

def Node.build_block_txs (nd : Node) (id : Nat) : List Nat × List (List Nat) :=
  build_block_txs_loop (decimalBytes id) nd.tx_pool

/-- `Node::build_block` (the parent-height lookup is a panicking `unwrap`). -/
def Node.build_block (nd : Node) (parent_hash : Hash) (e : Nat) : Option (Block × Node) :=
  let txsPool := nd.build_block_txs nd.id
  (lookupAssoc nd.chain.blocks parent_hash).map (fun parent =>
    (Block.new (some parent_hash) e txsPool.1 (parent.height + 1),
     { nd with tx_pool := txsPool.2 }))

/-- `Node::propose_block`.  Note the `votes.insert(new_block.hash, vote_set)`:
`HashMap::insert` replaces any existing binding, so a vote set already
recorded under that hash is overwritten by the singleton self-vote. -/
def Node.propose_block (nd : Node) (e : Nat) : Option Node :=
  let parent_hash := nd.chain.get_highest_notarized_block
  match nd.build_block parent_hash e with
  | none => none
  | some (new_block, nd₁) =>
      match nd₁.chain.validate_and_extend new_block parent_hash with
      | none => none
      | some (_, c) =>
          let c := { c with votes := insertAssoc c.votes new_block.hash [nd₁.id] }
          let signature := sign nd₁.id (serSig .blockProposal new_block.hash)
          some (Node.broadcast_message { nd₁ with chain := c }
            (.block (new_block.to_block_message nd₁.id signature)))

/-- `Node::new_epoch`. -/
def Node.new_epoch (nd : Node) (e : Nat) : Option Node :=
  if leader e nd.n = nd.id then nd.propose_block e else some nd

/-- `Node::validate_transaction`: returns the over-length flag. -/
def Node.validate_transaction (nd : Node) (tx : List Nat) : Bool :=
  tx.length > MAXLENGTH_SINGLE_TX

/-- `Node::send_transaction`. -/
def Node.send_transaction (nd : Node) (tx : List Nat) : Node :=
  if nd.validate_transaction tx then nd
  else { nd with tx_pool := nd.tx_pool ++ [tx] }

/-! ## Byzantine population construction (network.rs: Network::new_byzantine) -/

/-- Per-index honest/adversary decision of `Network::new_byzantine`: index i
gets an honest `Node` when `i < (2.0 / 3.0 * n as f64) as usize` and an
`AttackerNode` otherwise (threshold modelled as the floor, see header). -/
def byzIsAttacker (i n : Nat) : Bool := ¬ (i < 2 * n / 3)

/-- The attacker/honest layout of the population built by `new_byzantine`
(true marks an `AttackerNode`; the attacker configuration set is carried
unchanged into every attacker and does not affect placement). -/
def new_byzantine_layout (n : Nat) : List Bool :=
  (List.range n).map (fun i => byzIsAttacker i n)

/-! ## Generic lemmas about the map and set helpers -/

theorem mem_insertHash {l : List Hash} {a : Hash} (h : Hash) (ha : a ∈ l) : a ∈ insertHash l h := by
  unfold insertHash
  split
  · exact ha
  · exact List.mem_append_left _ ha

theorem mem_insertNat {l : List Nat} {a : Nat} (v : Nat) (ha : a ∈ l) : a ∈ insertNat l v := by
  unfold insertNat
  split
  · exact ha
  · exact List.mem_append_left _ ha

theorem lookupAssoc_insertAssoc_self {α : Type} (m : List (Hash × α)) (h : Hash) (v : α) :
    lookupAssoc (insertAssoc m h v) h = some v := by
  induction m with
  | nil => simp [insertAssoc, lookupAssoc]
  | cons p rest ih =>
      obtain ⟨k, w⟩ := p
      by_cases hk : k = h
      · simp [insertAssoc, lookupAssoc, hk]
      · simp [insertAssoc, lookupAssoc, hk, ih]

theorem insertAssoc_cons_pos {α : Type} {k h : Hash} (w v : α) (rest : List (Hash × α))
    (hk : k = h) : insertAssoc ((k, w) :: rest) h v = (k, v) :: rest := by
  simp [insertAssoc, hk]

theorem insertAssoc_cons_neg {α : Type} {k h : Hash} (w v : α) (rest : List (Hash × α))
    (hk : ¬ k = h) : insertAssoc ((k, w) :: rest) h v = (k, w) :: insertAssoc rest h v := by
  simp [insertAssoc, hk]

theorem updateAssoc_cons_pos {α : Type} {k h : Hash} (w : α) (rest : List (Hash × α))
    (f : α → α) (hk : k = h) :
    updateAssoc ((k, w) :: rest) h f = (k, f w) :: updateAssoc rest h f := by
  simp [updateAssoc, hk]

theorem updateAssoc_cons_neg {α : Type} {k h : Hash} (w : α) (rest : List (Hash × α))
    (f : α → α) (hk : ¬ k = h) :
    updateAssoc ((k, w) :: rest) h f = (k, w) :: updateAssoc rest h f := by
  simp [updateAssoc, hk]

theorem lookupAssoc_insertAssoc_ne {α : Type} (m : List (Hash × α)) {h h' : Hash} (v : α)
    (hne : h' ≠ h) : lookupAssoc (insertAssoc m h v) h' = lookupAssoc m h' := by
  induction m with
  | nil => simp [insertAssoc, lookupAssoc, Ne.symm hne]
  | cons p rest ih =>
      obtain ⟨k, w⟩ := p
      by_cases hk : k = h
      · rw [insertAssoc_cons_pos w v rest hk]
        have hkh' : ¬ k = h' := by
          rw [hk]
          exact Ne.symm hne
        simp [lookupAssoc, hkh']
      · rw [insertAssoc_cons_neg w v rest hk]
        by_cases hk' : k = h'
        · simp [lookupAssoc, hk']
        · simp [lookupAssoc, hk', ih]

theorem lookupAssoc_updateAssoc_self {α : Type} (m : List (Hash × α)) (h : Hash) (f : α → α) :
    lookupAssoc (updateAssoc m h f) h = (lookupAssoc m h).map f := by
  induction m with
  | nil => simp [updateAssoc, lookupAssoc]
  | cons p rest ih =>
      obtain ⟨k, w⟩ := p
      by_cases hk : k = h
      · rw [updateAssoc_cons_pos w rest f hk]
        simp [lookupAssoc, hk]
      · rw [updateAssoc_cons_neg w rest f hk]
        simp [lookupAssoc, hk, ih]

theorem lookupAssoc_updateAssoc_ne {α : Type} (m : List (Hash × α)) {h h' : Hash} (f : α → α)
    (hne : h' ≠ h) : lookupAssoc (updateAssoc m h f) h' = lookupAssoc m h' := by
  induction m with
  | nil => simp [updateAssoc, lookupAssoc]
  | cons p rest ih =>
      obtain ⟨k, w⟩ := p
      by_cases hk : k = h
      · rw [updateAssoc_cons_pos w rest f hk]
        have hkh' : ¬ k = h' := by
          rw [hk]
          exact Ne.symm hne
        simp [lookupAssoc, hkh', ih]
      · rw [updateAssoc_cons_neg w rest f hk]
        by_cases hk' : k = h'
        · simp [lookupAssoc, hk']
        · simp [lookupAssoc, hk', ih]

theorem resizeList_length {α : Type} (l : List α) (n : Nat) (fill : α) :
    (resizeList l n fill).length = n := by
  unfold resizeList
  split
  · next hge => simp [List.length_take]; omega
  · next hlt => simp [List.length_append, List.length_replicate]; omega

theorem setAt_length {α : Type} (l : List α) (i : Nat) (f : α → α) :
    (setAt l i f).length = l.length := by
  simp [setAt]

/-! ## Monotonicity infrastructure (claim C3) -/

/-- Every recorded voter of every hash survives. -/
def VotesMono (c c' : Blockchain) : Prop :=
  ∀ h v, v ∈ votersOf c h → v ∈ votersOf c' h

/-- The notarized and finalized sets only grow. -/
def GrowMono (c c' : Blockchain) : Prop :=
  (∀ h, h ∈ c.notarized → h ∈ c'.notarized) ∧ (∀ h, h ∈ c.finalized → h ∈ c'.finalized)

def ChainMono (c c' : Blockchain) : Prop := VotesMono c c' ∧ GrowMono c c'

theorem chainMono_refl (c : Blockchain) : ChainMono c c :=
  ⟨fun _ _ hv => hv, fun _ hn => hn, fun _ hf => hf⟩

theorem chainMono_of_eq {c c' : Blockchain}
    (hv : c'.votes = c.votes) (hn : c'.notarized = c.notarized)
    (hf : c'.finalized = c.finalized) : ChainMono c c' := by
  constructor
  · intro h v hm
    simpa [votersOf, hv] using hm
  · constructor
    · intro h hm
      simpa [hn] using hm
    · intro h hm
      simpa [hf] using hm

theorem chainMono_trans {a b c : Blockchain} (h1 : ChainMono a b) (h2 : ChainMono b c) :
    ChainMono a c :=
  ⟨fun h v hv => h2.1 h v (h1.1 h v hv),
   fun h hn => h2.2.1 h (h1.2.1 h hn),
   fun h hf => h2.2.2 h (h1.2.2 h hf)⟩

theorem votersOf_ensureVotes (c : Blockchain) (h h' : Hash) :
    votersOf (ensureVotes c h) h' = votersOf c h' := by
  unfold ensureVotes votersOf
  split
  · rfl
  · next habs =>
      by_cases he : h' = h
      · subst he
        rcases Option.not_isSome_iff_eq_none.mp habs with hnone
        simp [lookupAssoc_insertAssoc_self, hnone]
      · simp [lookupAssoc_insertAssoc_ne _ _ he]

theorem ensureVotes_mono (c : Blockchain) (h : Hash) : ChainMono c (ensureVotes c h) := by
  refine ⟨fun h' v hv => ?_, ?_, ?_⟩
  · rw [votersOf_ensureVotes]
    exact hv
  · intro h' hm
    unfold ensureVotes
    split <;> exact hm
  · intro h' hm
    unfold ensureVotes
    split <;> exact hm

theorem addVoter_mono (c : Blockchain) (h : Hash) (v : Nat) : ChainMono c (addVoter c h v) := by
  refine ⟨fun h' v' hv => ?_, fun h' hm => hm, fun h' hm => hm⟩
  unfold addVoter votersOf at hv ⊢
  by_cases he : h' = h
  · subst he
    rw [lookupAssoc_updateAssoc_self]
    cases hl : lookupAssoc c.votes h' with
    | none => simp [hl] at hv
    | some l =>
        simp [hl] at hv ⊢
        exact mem_insertNat v hv
  · rw [lookupAssoc_updateAssoc_ne _ _ he]
    exact hv

theorem insert_notarized_mono (c : Blockchain) (h : Hash) :
    ChainMono c { c with notarized := insertHash c.notarized h } := by
  exact ⟨fun _ _ hv => hv, fun h' hm => mem_insertHash h hm, fun _ hf => hf⟩

theorem finalizeLoop_mono (fuel : Nat) :
    ∀ (c : Blockchain) (h : Hash) (c' : Blockchain),
      finalizeLoop c h fuel = some c' → ChainMono c c' := by
  induction fuel with
  | zero =>
      intro c h c' hrun
      simp [finalizeLoop] at hrun
  | succ n ih =>
      intro c h c' hrun
      unfold finalizeLoop at hrun
      split at hrun
      · cases hrun
        exact chainMono_refl c
      · cases hl : lookupAssoc ({ c with finalized := insertHash c.finalized h }).blocks h with
        | none => simp [hl] at hrun
        | some b =>
            try simp only [hl] at hrun
            cases hp : b.parent_hash with
            | none => simp [hp] at hrun
            | some ph =>
                try simp only [hp] at hrun
                have step : ChainMono c { c with finalized := insertHash c.finalized h } :=
                  ⟨fun _ _ hv => hv, fun _ hm => hm, fun h' hf => mem_insertHash h hf⟩
                exact chainMono_trans step (ih _ ph c' hrun)

theorem finalize_mono (c : Blockchain) (h : Hash) (e : Nat) (c' : Blockchain)
    (hrun : finalize c h e = some c') : ChainMono c c' := by
  unfold finalize at hrun
  split at hrun
  · cases hrun
    exact chainMono_refl c
  · cases hb : lookupAssoc c.blocks h with
    | none => simp [hb] at hrun
    | some block =>
        try simp only [hb] at hrun
        cases hp : block.parent_hash with
        | none => simp [hp] at hrun
        | some ph =>
            try simp only [hp] at hrun
            cases hpb : lookupAssoc c.blocks ph with
            | none => simp [hpb] at hrun
            | some parent =>
                try simp only [hpb] at hrun
                split at hrun
                · cases hrun
                  exact chainMono_refl c
                · split at hrun
                  · cases hrun
                    exact chainMono_refl c
                  · split at hrun
                    · exact finalizeLoop_mono _ _ _ _ hrun
                    · cases hrun
                      exact chainMono_refl c

theorem notarize_mono (n : Nat) (c : Blockchain) (h : Hash) (c' : Blockchain)
    (hrun : notarize n c h = some c') : ChainMono c c' := by
  unfold notarize at hrun
  cases hb : lookupAssoc c.blocks h with
  | none => simp [hb] at hrun
  | some block =>
      try simp only [hb] at hrun
      cases hv : lookupAssoc c.votes h with
      | none => simp [hv] at hrun
      | some vs =>
          try simp only [hv] at hrun
          split at hrun
          · cases hrun
            exact chainMono_refl c
          · cases hp : block.parent_hash with
            | none => simp [hp] at hrun
            | some ph =>
                try simp only [hp] at hrun
                cases hpb : lookupAssoc c.blocks ph with
                | none => simp [hpb] at hrun
                | some parent =>
                    try simp only [hpb] at hrun
                    exact chainMono_trans (insert_notarized_mono c h)
                      (finalize_mono _ _ _ _ hrun)

theorem vae_chain_stable {c : Blockchain} {b : Block} {ph : Hash} {r : Bool} {c' : Blockchain}
    (hrun : c.validate_and_extend b ph = some (r, c')) :
    c'.votes = c.votes ∧ c'.notarized = c.notarized ∧ c'.finalized = c.finalized := by
  unfold Blockchain.validate_and_extend at hrun
  split at hrun
  · cases hrun
    exact ⟨rfl, rfl, rfl⟩
  · cases hp : lookupAssoc c.blocks ph with
    | none => simp [hp] at hrun
    | some parent =>
        try simp only [hp] at hrun
        cases hrun
        exact ⟨rfl, rfl, rfl⟩

theorem vae_mono {c : Blockchain} {b : Block} {ph : Hash} {r : Bool} {c' : Blockchain}
    (hrun : c.validate_and_extend b ph = some (r, c')) : ChainMono c c' := by
  obtain ⟨h1, h2, h3⟩ := vae_chain_stable hrun
  exact chainMono_of_eq h1 h2 h3

theorem broadcast_chain (nd : Node) (m : Msg) : (nd.broadcast_message m).chain = nd.chain := rfl

theorem vote_mono (nd : Node) (b : Block) (nd' : Node) (hrun : nd.vote b = some nd') :
    ChainMono nd.chain nd'.chain := by
  unfold Node.vote at hrun
  cases hl : nd.chain.block_by_epoch[b.e]? with
  | none => simp [hl] at hrun
  | some level =>
      try simp only [hl] at hrun
      split at hrun
      · cases hrun
        exact chainMono_refl _
      · cases hn : notarize nd.n (addVoter (ensureVotes nd.chain b.hash) b.hash nd.id) b.hash with
        | none => simp [hn] at hrun
        | some c' =>
            try simp only [hn] at hrun
            cases hrun
            exact chainMono_trans
              (chainMono_trans (ensureVotes_mono nd.chain b.hash)
                (addVoter_mono (ensureVotes nd.chain b.hash) b.hash nd.id))
              (notarize_mono _ _ _ _ hn)

theorem receive_block_mono (nd : Node) (bm : BlockMessage) (nd' : Node)
    (hrun : nd.receive_block bm = some nd') : ChainMono nd.chain nd'.chain := by
  unfold Node.receive_block at hrun
  cases hph : bm.parent_hash with
  | none =>
      try simp only [hph] at hrun
      cases hrun
      exact chainMono_refl _
  | some ph =>
      try simp only [hph] at hrun
      cases hpar : lookupAssoc nd.chain.blocks ph with
      | none =>
          try simp only [hpar] at hrun
          cases hrun
          exact chainMono_refl _
      | some parent =>
          try simp only [hpar] at hrun
          split at hrun
          · cases hrun
            exact chainMono_refl _
          · split at hrun
            · cases hrun
              exact chainMono_refl _
            · split at hrun
              · cases hrun
                exact chainMono_refl _
              · cases hvae : nd.chain.validate_and_extend
                    (Block.new (some ph) bm.e bm.txs (parent.height + 1)) parent.hash with
                | none => simp [hvae] at hrun
                | some rc =>
                    obtain ⟨r, c⟩ := rc
                    cases r with
                    | false =>
                        try simp only [hvae] at hrun
                        cases hrun
                        exact vae_mono hvae
                    | true =>
                        try simp only [hvae] at hrun
                        set blk := Block.new (some ph) bm.e bm.txs (parent.height + 1) with hblk
                        set c₃ := addVoter (ensureVotes c blk.hash) blk.hash bm.signer with hc₃
                        cases hhb : lookupAssoc c₃.blocks c₃.get_highest_notarized_block with
                        | none => simp [hhb] at hrun
                        | some hb =>
                            try simp only [hhb] at hrun
                            have base : ChainMono nd.chain c₃ :=
                              chainMono_trans (vae_mono hvae)
                                (chainMono_trans (ensureVotes_mono c blk.hash)
                                  (addVoter_mono (ensureVotes c blk.hash) blk.hash bm.signer))
                            split at hrun
                            · cases hvote : Node.vote { nd with chain := c₃ } blk with
                              | none => simp [hvote] at hrun
                              | some nd₂ =>
                                  try simp only [hvote, Option.map_some'] at hrun
                                  cases hrun
                                  exact chainMono_trans base (vote_mono _ _ _ hvote)
                            · try simp only [Option.map_some'] at hrun
                              cases hrun
                              exact base

theorem receive_vote_mono (nd : Node) (vm : VoteMessage) (nd' : Node)
    (hrun : nd.receive_vote vm = some nd') : ChainMono nd.chain nd'.chain := by
  unfold Node.receive_vote at hrun
  cases hph : vm.parent_hash with
  | none =>
      try simp only [hph] at hrun
      cases hrun
      exact chainMono_refl _
  | some ph =>
      try simp only [hph] at hrun
      set blk := Block.new (some ph) vm.e vm.txs 0 with hblk
      set c₁ := ensureVotes nd.chain blk.hash with hc₁
      split at hrun
      · cases hrun
        exact ensureVotes_mono nd.chain blk.hash
      · split at hrun
        · cases hrun
          exact ensureVotes_mono nd.chain blk.hash
        · set c₂ := addVoter c₁ blk.hash vm.signer with hc₂
          have base : ChainMono nd.chain c₂ :=
            chainMono_trans (ensureVotes_mono nd.chain blk.hash)
              (addVoter_mono c₁ blk.hash vm.signer)
          cases hbl : lookupAssoc (Node.broadcast_message { nd with chain := c₂ }
              (Msg.vote vm)).chain.blocks blk.hash with
          | none =>
              try simp only [hbl] at hrun
              cases hrun
              exact base
          | some block =>
              try simp only [hbl] at hrun
              cases hn : notarize (Node.broadcast_message { nd with chain := c₂ }
                  (Msg.vote vm)).n (Node.broadcast_message { nd with chain := c₂ }
                  (Msg.vote vm)).chain block.hash with
              | none => simp [hn] at hrun
              | some c' =>
                  try simp only [hn, Option.map_some'] at hrun
                  cases hrun
                  exact chainMono_trans base (notarize_mono _ _ _ _ hn)

theorem incoming_message_mono (nd : Node) (m : Msg) (nd' : Node)
    (hrun : nd.incoming_message m = some nd') : ChainMono nd.chain nd'.chain := by
  cases m with
  | block bm => exact receive_block_mono nd bm nd' hrun
  | vote vm => exact receive_vote_mono nd vm nd' hrun

theorem foldl_incoming_mono (msgs : List Msg) :
    ∀ (nd nd' : Node),
      msgs.foldl (fun acc m => acc.bind (fun x => x.incoming_message m)) (some nd) = some nd' →
      ChainMono nd.chain nd'.chain := by
  induction msgs with
  | nil =>
      intro nd nd' hrun
      cases hrun
      exact chainMono_refl _
  | cons m ms ih =>
      intro nd nd' hrun
      simp only [List.foldl_cons, Option.some_bind] at hrun
      cases hstep : nd.incoming_message m with
      | none =>
          rw [hstep] at hrun
          have : ∀ (l : List Msg),
              l.foldl (fun acc m => acc.bind (fun x => x.incoming_message m))
                (none : Option Node) = none := by
            intro l
            induction l with
            | nil => rfl
            | cons a as iha => simp only [List.foldl_cons, Option.none_bind, iha]
          rw [this] at hrun
          cases hrun
      | some nd₁ =>
          rw [hstep] at hrun
          exact chainMono_trans (incoming_message_mono nd m nd₁ hstep) (ih nd₁ nd' hrun)

theorem process_unprocessed_pool_mono (nd nd' : Node)
    (hrun : nd.process_unprocessed_pool = some nd') : ChainMono nd.chain nd'.chain := by
  unfold Node.process_unprocessed_pool at hrun
  exact foldl_incoming_mono nd.unprocessed_pool { nd with unprocessed_pool := [] } nd' hrun

theorem send_transaction_chain (nd : Node) (tx : List Nat) :
    (nd.send_transaction tx).chain = nd.chain := by
  unfold Node.send_transaction
  split <;> rfl

/-- The hash of the block `propose_block` creates in epoch e from the current
state (parent = highest notarized block, payload = id digits ++ drained
transactions). -/
def Node.proposed_block_hash (nd : Node) (e : Nat) : Hash :=
  sha256 (blockPreimage (some nd.chain.get_highest_notarized_block) e
    (nd.build_block_txs nd.id).1)

theorem build_block_spec (nd : Node) (ph : Hash) (e : Nat) (b : Block) (nd₁ : Node)
    (h : nd.build_block ph e = some (b, nd₁)) :
    b.hash = sha256 (blockPreimage (some ph) e (nd.build_block_txs nd.id).1) ∧
    nd₁.chain = nd.chain ∧ nd₁.id = nd.id := by
  unfold Node.build_block at h
  cases hp : lookupAssoc nd.chain.blocks ph with
  | none => simp [hp] at h
  | some parent =>
      simp only [hp, Option.map_some', Option.some.injEq, Prod.mk.injEq] at h
      obtain ⟨hB, hN⟩ := h
      subst hB
      subst hN
      exact ⟨rfl, rfl, rfl⟩

theorem propose_block_votes (nd : Node) (e : Nat) (nd' : Node)
    (hrun : nd.propose_block e = some nd') :
    GrowMono nd.chain nd'.chain ∧
    votersOf nd'.chain (nd.proposed_block_hash e) = [nd.id] ∧
    (∀ h v, h ≠ nd.proposed_block_hash e →
      v ∈ votersOf nd.chain h → v ∈ votersOf nd'.chain h) := by
  unfold Node.propose_block at hrun
  cases hbb : nd.build_block nd.chain.get_highest_notarized_block e with
  | none => simp [hbb] at hrun
  | some p =>
      obtain ⟨new_block, nd₁⟩ := p
      simp only [hbb] at hrun
      obtain ⟨hhash, hchain, hid⟩ :=
        build_block_spec nd nd.chain.get_highest_notarized_block e new_block nd₁ hbb
      have hhash' : new_block.hash = nd.proposed_block_hash e := hhash
      cases hvae : nd₁.chain.validate_and_extend new_block
          nd.chain.get_highest_notarized_block with
      | none => simp [hvae] at hrun
      | some rc =>
          obtain ⟨r, c⟩ := rc
          simp only [hvae] at hrun
          cases hrun
          obtain ⟨hv, hn, hf⟩ := vae_chain_stable hvae
          refine ⟨⟨?_, ?_⟩, ?_, ?_⟩
          · intro h hm
            simp only [broadcast_chain, hn]
            rw [hchain]
            exact hm
          · intro h hm
            simp only [broadcast_chain, hf]
            rw [hchain]
            exact hm
          · simp only [broadcast_chain]
            unfold votersOf
            rw [hid, ← hhash', lookupAssoc_insertAssoc_self]
            rfl
          · intro h v hne hm
            simp only [broadcast_chain]
            unfold votersOf at hm ⊢
            have hne' : h ≠ new_block.hash := by
              rw [hhash']
              exact hne
            rw [lookupAssoc_insertAssoc_ne _ _ hne', hv, hchain]
            exact hm

theorem new_epoch_grow (nd : Node) (e : Nat) (nd' : Node)
    (hrun : nd.new_epoch e = some nd') : GrowMono nd.chain nd'.chain := by
  unfold Node.new_epoch at hrun
  split at hrun
  · exact (propose_block_votes nd e nd' hrun).1
  · cases hrun
    exact ⟨fun _ hm => hm, fun _ hm => hm⟩

/-! ## Further structural lemmas used by the claim theorems -/

theorem vae_true_bbe_length {c : Blockchain} {b : Block} {ph : Hash} {c' : Blockchain}
    (h : c.validate_and_extend b ph = some (true, c')) :
    c'.block_by_epoch.length = b.e + 1 := by
  unfold Blockchain.validate_and_extend at h
  split at h
  · simp at h
  · cases hp : lookupAssoc c.blocks ph with
    | none => simp [hp] at h
    | some parent =>
        simp only [hp] at h
        cases h
        simp [setAt_length, resizeList_length]

theorem exists_peer {id n : Nat} (hid : id < n) (hn : 2 ≤ n) :
    ∃ j, j ∈ (List.range n).filter (fun i => i ≠ id) := by
  by_cases h0 : id = 0
  · refine ⟨1, ?_⟩
    simp only [List.mem_filter, List.mem_range, decide_eq_true_iff]
    omega
  · refine ⟨0, ?_⟩
    simp only [List.mem_filter, List.mem_range, decide_eq_true_iff]
    omega

/-! ## Shared concrete objects for the claim-level evaluations -/

/-- The genesis hash: SHA-256 of 32 zero parent bytes followed by the
little-endian epoch 0 and the empty payload. -/
def genesisHash : Hash := (Blockchain.new 0).genesis

/-- The hash a reconstructed block with the given parent, epoch and payload
gets (heights and names do not enter the preimage). -/
def hashOfBlock (p : Hash) (e : Nat) (t : List Nat) : Hash :=
  sha256 (blockPreimage (some p) e t)

/-- A correctly signed `BlockMessage` as a peer (or a forging peer: the
simulator signature is just the pair of the claimed signer and the payload)
would produce it. -/
def mkBlockMsg (ph : Hash) (e : Nat) (t : List Nat) (s : Nat) : BlockMessage :=
  { creator := s, parent_hash := some ph, e := e, txs := t, signer := s,
    signature := sign s (serSig .blockProposal (hashOfBlock ph e t)) }

/-- A correctly signed `VoteMessage`. -/
def mkVoteMsg (ph : Hash) (e : Nat) (t : List Nat) (s : Nat) : VoteMessage :=
  { creator := s, parent_hash := some ph, e := e, txs := t, signer := s,
    signature := sign s (serSig .vote (hashOfBlock ph e t)) }

/-! ## Claim C1: the notarization quorum is not the strict 2n/3 bound -/

def c1hashA : Hash := hashOfBlock genesisHash 1 [65]

/-- A node-2 chain holding one epoch-1 child of genesis for which exactly the
two voters 0 and 1 are recorded (n = 3, so 2 = 2n/3 votes, not strictly
more). -/
def c1chain : Blockchain :=
  match (Blockchain.new 2).validate_and_extend (Block.new (some genesisHash) 1 [65] 1)
      genesisHash with
  | some (_, c) => { c with votes := [(c1hashA, [0, 1])] }
  | none => Blockchain.new 2

/-- Claim C1: the spec requires notarization exactly when the vote count
strictly exceeds 2n/3, with ceil(2n/3) votes notarizing nothing.  The code
instead notarizes at `(n as f64 * 2.0 / 3.0) as usize` = floor(2n/3)
recorded votes: with n = 3 and exactly 2 = 2n/3 = ceil(2n/3) voters the
block IS inserted into the notarized set, although 2 > 2n/3 is false.  This
also contradicts the comment above the check, which demands more than 2n/3
votes. -/
theorem c1_notarizes_at_two_thirds_without_strict_majority :
    ((notarize 3 c1chain c1hashA).map (fun c => c.notarized.contains c1hashA) = some true) ∧
    (votersOf c1chain c1hashA).length = 2 ∧
    ¬ (3 * (votersOf c1chain c1hashA).length > 2 * 3) := by
  refine ⟨by decide, by decide, by decide⟩

/-! ## Claim C2: a reachable state with a finalized but never notarized block -/

def c2hashA : Hash := hashOfBlock genesisHash 1 [65]

def c2hashB : Hash := hashOfBlock c2hashA 2 [66]

def c2hashC : Hash := hashOfBlock c2hashB 3 [67]

/-- Five messages delivered to honest node 2 (of n = 3).  Epoch leaders are
leader(1) = 2, leader(2) = 0, leader(3) = 1, leader(4) = 0.  The proposal
chain A(e1) - B(e2) - C(e3) - D(e4) hangs off genesis; A is signed by the
receiving node's own id (so its only recorded voter is 2 and it never
reaches the 2-vote quorum), while B gets an extra vote from signer 100.
B, C and D all reach quorum and are notarized; A never is. -/
def c2msgs : List Msg :=
  [.block (mkBlockMsg genesisHash 1 [65] 2),
   .block (mkBlockMsg c2hashA 2 [66] 0),
   .vote (mkVoteMsg c2hashA 2 [66] 100),
   .block (mkBlockMsg c2hashB 3 [67] 1),
   .block (mkBlockMsg c2hashC 4 [68] 0)]

def c2run : Option Node :=
  c2msgs.foldl (fun acc m => acc.bind (fun nd => nd.incoming_message m)) (some (Node.new 2 3))

/-- Claim C2: the spec asserts `notarized ⊇ finalized` after every operation;
the ancestor walk inside `finalize` inserts every ancestor into `finalized`
without checking notarization.  After the five `incoming_message` operations
of `c2msgs` (each completing normally), notarizing D triggers
finalize(C, 3), whose walk finalizes C, B and also A - and A is not in the
notarized set.  So `finalized ⊆ notarized` is violated in a reachable
state. -/
theorem c2_finalize_walk_escapes_notarized_set :
    c2run.map (fun nd =>
      nd.chain.finalized.contains c2hashA && !(nd.chain.notarized.contains c2hashA))
      = some true := by
  decide

/-! ## Claim C3: vote sets do not grow monotonically across propose_block -/

def c3hashP : Hash := hashOfBlock genesisHash 1 (decimalBytes 2)

/-- Node 2 first receives a valid vote by signer 100 for the exact block it
will itself propose in epoch 1 (parent genesis, payload its own id digits -
all predictable), then epoch 1 begins and node 2 is its leader. -/
def c3nd1 : Option Node :=
  (Node.new 2 3).incoming_message (.vote (mkVoteMsg genesisHash 1 (decimalBytes 2) 100))

def c3nd2 : Option Node := c3nd1.bind (fun nd => nd.new_epoch 1)

/-- Claim C3 counterexample: voter 100 is recorded for the predicted hash
after the first operation and gone after `new_epoch 1`, because
`propose_block` installs the self-vote with `votes.insert(hash, {id})`,
which replaces the existing vote set. -/
theorem c3_propose_block_drops_recorded_voter :
    (c3nd1.map (fun nd => (votersOf nd.chain c3hashP).contains 100) = some true) ∧
    (c3nd2.map (fun nd => (votersOf nd.chain c3hashP).contains 100) = some false) := by
  refine ⟨by decide, by decide⟩

/-- Claim C3 (amended): across incoming_message, process_unprocessed_pool,
send_transaction, vote, notarize and finalize, every recorded voter of every
hash survives and the notarized and finalized sets only grow; new_epoch and
propose_block also only grow notarized and finalized, but propose_block
replaces the vote set of the newly proposed block with exactly the
proposer's self-vote (vote sets of all other hashes survive). -/
theorem c3_monotonicity_except_propose_overwrite :
    (∀ (nd : Node) (m : Msg) (nd' : Node),
        nd.incoming_message m = some nd' → ChainMono nd.chain nd'.chain) ∧
    (∀ (nd nd' : Node),
        nd.process_unprocessed_pool = some nd' → ChainMono nd.chain nd'.chain) ∧
    (∀ (nd : Node) (tx : List Nat), (nd.send_transaction tx).chain = nd.chain) ∧
    (∀ (nd : Node) (b : Block) (nd' : Node),
        nd.vote b = some nd' → ChainMono nd.chain nd'.chain) ∧
    (∀ (n : Nat) (c : Blockchain) (h : Hash) (c' : Blockchain),
        notarize n c h = some c' → ChainMono c c') ∧
    (∀ (c : Blockchain) (h : Hash) (e : Nat) (c' : Blockchain),
        finalize c h e = some c' → ChainMono c c') ∧
    (∀ (nd : Node) (e : Nat) (nd' : Node),
        nd.new_epoch e = some nd' → GrowMono nd.chain nd'.chain) ∧
    (∀ (nd : Node) (e : Nat) (nd' : Node), nd.propose_block e = some nd' →
        GrowMono nd.chain nd'.chain ∧
        votersOf nd'.chain (nd.proposed_block_hash e) = [nd.id] ∧
        (∀ h v, h ≠ nd.proposed_block_hash e →
          v ∈ votersOf nd.chain h → v ∈ votersOf nd'.chain h)) :=
  ⟨incoming_message_mono, process_unprocessed_pool_mono, send_transaction_chain,
   vote_mono, notarize_mono, finalize_mono, new_epoch_grow, propose_block_votes⟩

def c3wStart : Node :=
  { Node.new 0 3 with chain := { Blockchain.new 0 with votes := [(c3hashP, [100])] } }

def c3wMsg : Msg := .vote (mkVoteMsg genesisHash 1 (decimalBytes 2) 101)

def c3wRes : Node := (c3wStart.incoming_message c3wMsg).getD c3wStart

/-- Witness for the amended claim C3: a node that already recorded voter 100
processes one more vote message; applying the monotonicity theorem shows
voter 100 is still recorded afterwards. -/
theorem c3_monotonicity_witness : 100 ∈ votersOf c3wRes.chain c3hashP :=
  (c3_monotonicity_except_propose_overwrite.1 c3wStart c3wMsg c3wRes (by rfl)).1
    c3hashP 100 (by decide)

/-! ## Claim C5: validate_and_extend truncates the per-epoch index -/

def c5B5 : Block := Block.new (some genesisHash) 5 [1] 1

def c5B3 : Block := Block.new (some genesisHash) 3 [2] 1

def c5step1 : Option (Bool × Blockchain) :=
  (Blockchain.new 0).validate_and_extend c5B5 genesisHash

def c5step2 : Option (Bool × Blockchain) :=
  c5step1.bind (fun p => p.2.validate_and_extend c5B3 genesisHash)

/-- Claim C5: the spec says a successful insert grows `block_by_epoch` to
length e+1 filling with empty sets.  `Vec::resize(e + 1, ..)` however
truncates: after inserting an epoch-5 block (index length 6, its hash
recorded at level 5), inserting an epoch-3 block returns true but shrinks
the index to length 4, silently dropping the epoch-5 hash from every level
(the block itself stays in `blocks`).  The boundary conjuncts the claim gets
right - e = 0 fails validation, e = 1 with a short payload passes - hold. -/
theorem c5_resize_truncates_epoch_index :
    (c5step1.map (fun p => p.1 && decide (p.2.block_by_epoch.length = 6)
        && (p.2.block_by_epoch.getD 5 []).contains c5B5.hash) = some true) ∧
    (c5step2.map (fun p => p.1 && decide (p.2.block_by_epoch.length = 4)
        && !(p.2.block_by_epoch.any (fun level => level.contains c5B5.hash))
        && p.2.contains_block c5B5.hash) = some true) ∧
    (((Blockchain.new 0).validate_and_extend (Block.new (some genesisHash) 0 [3] 1)
        genesisHash).map Prod.fst = some false) ∧
    (((Blockchain.new 0).validate_and_extend (Block.new (some genesisHash) 1 [3] 1)
        genesisHash).map Prod.fst = some true) := by
  refine ⟨by decide, by decide, by decide, by decide⟩

/-! ## Claim C6: send_transaction boundary behaviour -/

/-- Claim C6: `send_transaction` appends the transaction to the pool exactly
when its byte length is at most MAXLENGTH_SINGLE_TX = 2000, and otherwise
returns the node completely unchanged (the rejection path only logs). -/
theorem c6_send_transaction_boundary (nd : Node) (tx : List Nat) :
    (tx.length ≤ MAXLENGTH_SINGLE_TX →
      nd.send_transaction tx = { nd with tx_pool := nd.tx_pool ++ [tx] }) ∧
    (tx.length > MAXLENGTH_SINGLE_TX → nd.send_transaction tx = nd) ∧
    MAXLENGTH_SINGLE_TX = 2000 := by
  refine ⟨?_, ?_, rfl⟩
  · intro hle
    simp [Node.send_transaction, Node.validate_transaction, Nat.not_lt.mpr hle]
  · intro hgt
    simp [Node.send_transaction, Node.validate_transaction, hgt]

/-- Witness for claim C6: a 2000-byte transaction is appended, a 2001-byte
transaction leaves the node untouched. -/
theorem c6_send_transaction_boundary_witness :
    (Node.new 0 3).send_transaction (List.replicate 2000 97)
      = { Node.new 0 3 with tx_pool := [List.replicate 2000 97] } ∧
    (Node.new 0 3).send_transaction (List.replicate 2001 97) = Node.new 0 3 := by
  constructor
  · exact (c6_send_transaction_boundary (Node.new 0 3) (List.replicate 2000 97)).1
      (by simp [MAXLENGTH_SINGLE_TX])
  · exact (c6_send_transaction_boundary (Node.new 0 3) (List.replicate 2001 97)).2.1
      (by simp [MAXLENGTH_SINGLE_TX])

/-! ## Claim C7: the signing oracle round-trip -/

/-- Claim C7: verification succeeds for the genuine signer and fails for
every other claimed signer, because the simulated signature is the pair of
the signer id and the payload and verification is equality with a fresh
signature. -/
theorem c7_sign_verify_roundtrip (id id' : Nat) (p : List Nat) :
    check_signature id p (sign id p) = true ∧
    (id' ≠ id → check_signature id' p (sign id p) = false) := by
  constructor
  · exact decide_eq_true rfl
  · intro hne
    exact decide_eq_false (fun hcon => hne (congrArg Prod.fst hcon).symm)

/-- Witness for claim C7 at ids 0 and 1 and payload [1, 2, 3]. -/
theorem c7_sign_verify_roundtrip_witness :
    check_signature 0 [1, 2, 3] (sign 0 [1, 2, 3]) = true ∧
    check_signature 1 [1, 2, 3] (sign 0 [1, 2, 3]) = false :=
  ⟨(c7_sign_verify_roundtrip 0 1 [1, 2, 3]).1,
   (c7_sign_verify_roundtrip 0 1 [1, 2, 3]).2 (by decide)⟩

/-! ## Claim C9: the byzantine population layout -/

theorem countP_range_ge (t : Nat) :
    ∀ n, (List.range n).countP (fun i => decide (t ≤ i)) = n - t := by
  intro n
  induction n with
  | zero => simp
  | succ m ih =>
      rw [List.range_succ, List.countP_append, ih]
      by_cases ht : t ≤ m
      · simp [List.countP_cons, ht]
        omega
      · simp [List.countP_cons, ht]
        omega

/-- Claim C9: `new_byzantine` makes index i honest exactly when
i < floor(2n/3) (the f64 threshold coincides with the floor for every
realizable n, see the header note), hence exactly ceil(n/3) = (n+2)/3 of
the n nodes are adversaries. -/
theorem c9_new_byzantine_layout (n i : Nat) (hi : i < n) :
    ((new_byzantine_layout n).getD i true = false ↔ i < 2 * n / 3) ∧
    (new_byzantine_layout n).count true = (n + 2) / 3 := by
  constructor
  · unfold new_byzantine_layout byzIsAttacker
    rw [List.getD_eq_getElem?_getD, List.getElem?_map, List.getElem?_range hi]
    simp
  · unfold new_byzantine_layout byzIsAttacker
    rw [List.count_eq_countP, List.countP_map]
    have hcong : ∀ b ∈ List.range n,
        (((fun x => x == true) ∘ fun i => decide ¬i < 2 * n / 3) b = true
          ↔ (fun i => decide (2 * n / 3 ≤ i)) b = true) := by
      intro b _
      simp [Nat.not_lt]
    rw [List.countP_congr hcong, countP_range_ge]
    have h3 : 2 * n / 3 ≤ n := by omega
    omega

/-- Witness for claim C9 at n = 4, i = 3: index 3 is adversarial
(3 is not below floor(8/3) = 2) and the adversary count is 2 = ceil(4/3). -/
theorem c9_new_byzantine_layout_witness :
    ((new_byzantine_layout 4).getD 3 true = false ↔ 3 < 2 * 4 / 3) ∧
    (new_byzantine_layout 4).count true = (4 + 2) / 3 :=
  c9_new_byzantine_layout 4 3 (by decide)

/-! ## Claim C10: parent_of and notarize are partial on unknown hashes -/

/-- Claim C10: for a hash absent from `blocks`, `parent_of` hits its
unconditional `unwrap` and panics instead of returning a `None` parent, and
`notarize` dereferences the block (`blocks.get(..).unwrap()`) before its
`contains_block` guard, so the guard cannot save a missing-block call from
panicking; the `contains_block` test itself would have reported false. -/
theorem c10_unknown_hash_panics (c : Blockchain) (n : Nat) (h : Hash)
    (habs : lookupAssoc c.blocks h = none) :
    c.parent_of h = none ∧ notarize n c h = none ∧ c.contains_block h = false := by
  refine ⟨?_, ?_, ?_⟩
  · unfold Blockchain.parent_of
    rw [habs]
    rfl
  · unfold notarize
    rw [habs]
  · unfold Blockchain.contains_block
    rw [habs]
    rfl

/-- Witness for claim C10: a fresh chain holds only genesis, so the all-7
hash is unknown and both entry points are stuck on it. -/
theorem c10_unknown_hash_panics_witness :
    (Blockchain.new 0).parent_of (List.replicate 32 7) = none ∧
    notarize 3 (Blockchain.new 0) (List.replicate 32 7) = none ∧
    (Blockchain.new 0).contains_block (List.replicate 32 7) = false :=
  c10_unknown_hash_panics (Blockchain.new 0) 3 (List.replicate 32 7) (by decide)

/-! ## Claim C4: the vote decision of receive_block -/

theorem ensureVotes_bbe (c : Blockchain) (h : Hash) :
    (ensureVotes c h).block_by_epoch = c.block_by_epoch := by
  unfold ensureVotes
  split <;> rfl

theorem addVoter_bbe (c : Blockchain) (h : Hash) (v : Nat) :
    (addVoter c h v).block_by_epoch = c.block_by_epoch := rfl

theorem broadcast_outgoing (nd : Node) (m : Msg) :
    (nd.broadcast_message m).outgoing_messages
      = nd.outgoing_messages
        ++ ((List.range nd.n).filter (fun i => i ≠ nd.id)).map (fun i => (i, m)) := rfl

/-- Claim C4: an honest node processing a valid BlockProposal (parent known,
signer is the epoch leader, reconstructed hash fresh, signature valid, the
block extends the tree) broadcasts a vote for the reconstructed block
exactly when the block's height is one above the height of the highest
notarized block at the moment of the decision AND the per-epoch index
(which now includes the new block) holds no second block for that epoch.
`cex` is the tree right after the extension, `cv` the tree after the
signer's implied vote is recorded, `hb` the highest notarized block looked
up for the height test. -/
theorem c4_receive_block_vote_decision
    (nd : Node) (bm : BlockMessage) (ph : Hash) (parent blk : Block)
    (cex cv : Blockchain) (hb : Block) (nd' : Node)
    (hid : nd.id < nd.n) (hn : 2 ≤ nd.n)
    (hph : bm.parent_hash = some ph)
    (hparent : lookupAssoc nd.chain.blocks ph = some parent)
    (hleader : bm.signer = leader bm.e nd.n)
    (hblk : blk = Block.new (some ph) bm.e bm.txs (parent.height + 1))
    (hfresh : nd.chain.contains_block blk.hash = false)
    (hsig : check_signature bm.signer (serSig .blockProposal blk.hash) bm.signature = true)
    (hvae : nd.chain.validate_and_extend blk parent.hash = some (true, cex))
    (hcv : cv = addVoter (ensureVotes cex blk.hash) blk.hash bm.signer)
    (hhb : lookupAssoc cv.blocks cv.get_highest_notarized_block = some hb)
    (hrun : nd.receive_block bm = some nd') :
    (Msg.vote (blk.to_vote_message nd.id (sign nd.id (serSig .vote blk.hash)))
        ∈ (nd'.outgoing_messages.drop nd.outgoing_messages.length).map Prod.snd)
      ↔ (blk.height = hb.height + 1 ∧ (cv.block_by_epoch.getD blk.e []).length ≤ 1) := by
  subst hblk
  subst hcv
  unfold Node.receive_block at hrun
  simp only [hph, hparent] at hrun
  have hsgn : ¬ (bm.signer ≠ leader bm.e nd.n) := fun hc => hc hleader
  rw [if_neg hsgn] at hrun
  rw [hfresh] at hrun
  rw [if_neg (by simp)] at hrun
  rw [hsig] at hrun
  rw [if_neg (by simp)] at hrun
  simp only [hvae] at hrun
  simp only [hhb] at hrun
  have hlen : (addVoter (ensureVotes cex
      (Block.new (some ph) bm.e bm.txs (parent.height + 1)).hash)
      (Block.new (some ph) bm.e bm.txs (parent.height + 1)).hash
      bm.signer).block_by_epoch.length
      = (Block.new (some ph) bm.e bm.txs (parent.height + 1)).e + 1 := by
    rw [addVoter_bbe, ensureVotes_bbe]
    exact vae_true_bbe_length hvae
  by_cases hht : (Block.new (some ph) bm.e bm.txs (parent.height + 1)).height
      = hb.height + 1
  · rw [if_pos hht] at hrun
    unfold Node.vote at hrun
    have hlt : (Block.new (some ph) bm.e bm.txs (parent.height + 1)).e
        < (addVoter (ensureVotes cex
            (Block.new (some ph) bm.e bm.txs (parent.height + 1)).hash)
            (Block.new (some ph) bm.e bm.txs (parent.height + 1)).hash
            bm.signer).block_by_epoch.length := by
      rw [hlen]
      omega
    rw [List.getElem?_eq_getElem hlt] at hrun
    rw [List.getD_eq_getElem _ _ hlt]
    by_cases hcnt : 1 < ((addVoter (ensureVotes cex
        (Block.new (some ph) bm.e bm.txs (parent.height + 1)).hash)
        (Block.new (some ph) bm.e bm.txs (parent.height + 1)).hash
        bm.signer).block_by_epoch[(Block.new (some ph) bm.e bm.txs (parent.height + 1)).e]).length
    · simp only [hcnt, if_true, gt_iff_lt, Option.map_some'] at hrun
      cases hrun
      simp only [broadcast_outgoing]
      rw [List.drop_left]
      constructor
      · intro hmem
        exfalso
        simp only [List.map_map, List.mem_map, Function.comp] at hmem
        obtain ⟨a, _, ha⟩ := hmem
        cases ha
      · intro hrhs
        exfalso
        omega
    · simp only [gt_iff_lt, hcnt, if_false] at hrun
      cases hnz : notarize nd.n
          (addVoter (ensureVotes (addVoter (ensureVotes cex
              (Block.new (some ph) bm.e bm.txs (parent.height + 1)).hash)
              (Block.new (some ph) bm.e bm.txs (parent.height + 1)).hash bm.signer)
              (Block.new (some ph) bm.e bm.txs (parent.height + 1)).hash)
              (Block.new (some ph) bm.e bm.txs (parent.height + 1)).hash nd.id)
          (Block.new (some ph) bm.e bm.txs (parent.height + 1)).hash with
      | none =>
          rw [hnz] at hrun
          simp at hrun
      | some c₅ =>
          rw [hnz] at hrun
          simp only [Option.map_some'] at hrun
          cases hrun
          simp only [broadcast_outgoing]
          rw [List.append_assoc, List.drop_left]
          constructor
          · intro _
            exact ⟨hht, by omega⟩
          · intro _
            obtain ⟨j, hj⟩ := exists_peer hid hn
            simp only [List.map_append, List.map_map, List.mem_append]
            left
            simp only [List.mem_map, Function.comp]
            exact ⟨j, hj, trivial⟩
  · rw [if_neg hht] at hrun
    simp only [Option.map_some'] at hrun
    cases hrun
    simp only [broadcast_outgoing]
    rw [List.drop_left]
    constructor
    · intro hmem
      exfalso
      simp only [List.map_map, List.mem_map, Function.comp] at hmem
      obtain ⟨a, _, ha⟩ := hmem
      cases ha
    · intro hrhs
      exact absurd hrhs.1 hht

def c4wBm : BlockMessage := mkBlockMsg genesisHash 1 [53] 2

def c4wBlk : Block := Block.new (some genesisHash) 1 [53] 1

def c4wCex : Blockchain :=
  (((Node.new 1 3).chain.validate_and_extend c4wBlk (Block.new none 0 [] 0).hash).map
    Prod.snd).getD (Blockchain.new 1)

def c4wCv : Blockchain := addVoter (ensureVotes c4wCex c4wBlk.hash) c4wBlk.hash 2

def c4wHb : Block :=
  (lookupAssoc c4wCv.blocks c4wCv.get_highest_notarized_block).getD (Block.new none 0 [] 0)

def c4wRes : Node := ((Node.new 1 3).receive_block c4wBm).getD (Node.new 1 3)

/-- Witness for claim C4: honest node 1 (of 3) receives the epoch-1 proposal
from leader 2; the reconstructed block sits at height 1 = genesis height + 1
and is alone in its epoch, so the node broadcasts a vote. -/
theorem c4_receive_block_vote_decision_witness :
    (Msg.vote (c4wBlk.to_vote_message 1 (sign 1 (serSig .vote c4wBlk.hash)))
        ∈ ((c4wRes.outgoing_messages.drop
            (Node.new 1 3).outgoing_messages.length).map Prod.snd))
      ↔ (c4wBlk.height = c4wHb.height + 1 ∧
         (c4wCv.block_by_epoch.getD c4wBlk.e []).length ≤ 1) :=
  c4_receive_block_vote_decision (Node.new 1 3) c4wBm genesisHash
    (Block.new none 0 [] 0) c4wBlk c4wCex c4wCv c4wHb c4wRes
    (by decide) (by decide) rfl (by decide) (by decide) rfl (by decide) (by decide)
    (by decide) rfl (by decide) (by decide)

end Consensus
